import Mathlib

/-!
# Verification of the sql2kg knowledge-graph extraction core

This file gives a shallow embedding of the graph-extraction engine of
`sql2kg` (sources: `src/primary_key.rs`, `src/node.rs`, `src/edge_class.rs`,
`src/errors.rs`, `src/traits/kg_like_db.rs`) and proves or refutes the
frozen claims about it.

Modelling conventions:
* Rust `String` is Lean `String`; Rust string comparison (byte-wise on
  UTF-8) coincides with lexicographic comparison of the codepoint
  sequence, which is what `strCmp` below implements.
* `i32`/`i64` are modelled as `Int` (their `Ord` is the integer order),
  `uuid::Uuid` as `Nat` (its `Ord` is the order of the 128-bit value).
* The relational catalog (`sql_traits`) and the live Postgres connection
  are external collaborators; tables are modelled as descriptors carrying
  exactly the fields the core reads, and each query's result set is part
  of the model (`pk_rows` / `rows` fields), with a `load_error` field for
  a failing `query.load`.
* Rust panics (`unimplemented!`, `.expect`) are modelled as explicit
  `unimplemented` / `fatal` result constructors, distinct from the
  `Result::Err` channel.
-/

/-! ## Generic `Ordering` helpers -/

/-- Characterisation of `Ordering.then` evaluating to `.lt`. -/
theorem ordThen_eq_lt (o p : Ordering) : o.then p = .lt ↔ o = .lt ∨ (o = .eq ∧ p = .lt) := by
  cases o <;> simp [Ordering.then]

/-- Characterisation of `Ordering.then` evaluating to `.eq`. -/
theorem ordThen_eq_eq (o p : Ordering) : o.then p = .eq ↔ o = .eq ∧ p = .eq := by
  cases o <;> simp [Ordering.then]

/-- Characterisation of `Ordering.then` evaluating to `.gt`. -/
theorem ordThen_eq_gt (o p : Ordering) : o.then p = .gt ↔ o = .gt ∨ (o = .eq ∧ p = .gt) := by
  cases o <;> simp [Ordering.then]

/-- `Ordering.swap` distributes over `Ordering.then`. -/
theorem ordThen_swap (o p : Ordering) : (o.then p).swap = o.swap.then p.swap := by
  cases o <;> rfl

theorem ordSwap_eq_lt (o : Ordering) : o.swap = .lt ↔ o = .gt := by cases o <;> simp [Ordering.swap]

theorem ordSwap_eq_gt (o : Ordering) : o.swap = .gt ↔ o = .lt := by cases o <;> simp [Ordering.swap]

theorem ordSwap_eq_eq (o : Ordering) : o.swap = .eq ↔ o = .eq := by cases o <;> simp [Ordering.swap]

/-! ## Primitive comparators

`lcmp` is the three-way comparison of a linearly ordered primitive; it is
the order `derive(Ord)` gives Rust's `i32`, `i64`, `char`/UTF-8 byte and
`uuid::Uuid` payloads. -/

/-- Three-way comparison induced by a linear order. -/
def lcmp {α : Type} [LinearOrder α] (a b : α) : Ordering :=
  if a < b then .lt else if a = b then .eq else .gt

theorem lcmp_eq_lt {α : Type} [LinearOrder α] (a b : α) : lcmp a b = .lt ↔ a < b := by
  unfold lcmp; split_ifs with h1 h2 <;> simp_all

theorem lcmp_eq_eq {α : Type} [LinearOrder α] (a b : α) : lcmp a b = .eq ↔ a = b := by
  unfold lcmp; split_ifs with h1 h2 <;> simp_all
  exact h1.ne

theorem lcmp_eq_gt {α : Type} [LinearOrder α] (a b : α) : lcmp a b = .gt ↔ b < a := by
  unfold lcmp; split_ifs with h1 h2 <;> simp_all
  · exact le_of_lt h1
  · exact lt_of_le_of_ne h1 (Ne.symm h2)

theorem lcmp_swap {α : Type} [LinearOrder α] (a b : α) : (lcmp a b).swap = lcmp b a := by
  rcases lt_trichotomy a b with h | h | h
  · rw [(lcmp_eq_lt a b).mpr h, ((lcmp_eq_gt b a).mpr h : lcmp b a = .gt)]; rfl
  · rw [(lcmp_eq_eq a b).mpr h, ((lcmp_eq_eq b a).mpr h.symm : lcmp b a = .eq)]; rfl
  · rw [(lcmp_eq_gt a b).mpr h, ((lcmp_eq_lt b a).mpr h : lcmp b a = .lt)]; rfl

theorem lcmp_trans {α : Type} [LinearOrder α] (a b c : α) (h1 : lcmp a b = .lt)
    (h2 : lcmp b c = .lt) : lcmp a c = .lt :=
  (lcmp_eq_lt a c).mpr (lt_trans ((lcmp_eq_lt a b).mp h1) ((lcmp_eq_lt b c).mp h2))

/-! ## Lexicographic list comparator

Rust's `Vec<T>`/`str` `Ord` is element-wise lexicographic, a missing
element comparing less. -/

/-- Lexicographic three-way comparison of lists given an element comparator. -/
def listCmpWith {α : Type} (c : α → α → Ordering) : List α → List α → Ordering
  | [], [] => .eq
  | [], _ :: _ => .lt
  | _ :: _, [] => .gt
  | a :: as, b :: bs => (c a b).then (listCmpWith c as bs)

theorem listCmpWith_eq_eq {α : Type} (c : α → α → Ordering)
    (hc : ∀ a b, c a b = .eq ↔ a = b) :
    ∀ as bs, listCmpWith c as bs = .eq ↔ as = bs
  | [], [] => by simp [listCmpWith]
  | [], _ :: _ => by simp [listCmpWith]
  | _ :: _, [] => by simp [listCmpWith]
  | a :: as, b :: bs => by
    simp only [listCmpWith, ordThen_eq_eq, hc, listCmpWith_eq_eq c hc as bs, List.cons.injEq]

theorem listCmpWith_swap {α : Type} (c : α → α → Ordering)
    (hc : ∀ a b, (c a b).swap = c b a) :
    ∀ as bs, (listCmpWith c as bs).swap = listCmpWith c bs as
  | [], [] => rfl
  | [], _ :: _ => rfl
  | _ :: _, [] => rfl
  | a :: as, b :: bs => by
    simp only [listCmpWith, ordThen_swap, hc, listCmpWith_swap c hc as bs]

theorem listCmpWith_trans {α : Type} (c : α → α → Ordering)
    (hceq : ∀ a b, c a b = .eq ↔ a = b)
    (hctr : ∀ a b d, c a b = .lt → c b d = .lt → c a d = .lt) :
    ∀ as bs cs, listCmpWith c as bs = .lt → listCmpWith c bs cs = .lt →
      listCmpWith c as cs = .lt
  | [], [], _ :: _, _, _ => rfl
  | [], _ :: _, _ :: _, _, _ => rfl
  | a :: as, b :: bs, c' :: cs, h1, h2 => by
    rw [listCmpWith, ordThen_eq_lt] at h1 h2 ⊢
    rcases h1 with h1 | ⟨h1e, h1l⟩
    · rcases h2 with h2 | ⟨h2e, h2l⟩
      · exact Or.inl (hctr _ _ _ h1 h2)
      · exact Or.inl (((hceq b c').mp h2e) ▸ h1)
    · rcases h2 with h2 | ⟨h2e, h2l⟩
      · exact Or.inl (((hceq a b).mp h1e) ▸ h2)
      · exact Or.inr ⟨(hceq a c').mpr (((hceq a b).mp h1e).trans ((hceq b c').mp h2e)),
          listCmpWith_trans c hceq hctr as bs cs h1l h2l⟩

/-- Comparator for `Option`, `none` first — the order `derive(Ord)` gives
Rust's `Option<T>`. -/
def optCmpWith {α : Type} (c : α → α → Ordering) : Option α → Option α → Ordering
  | none, none => .eq
  | none, some _ => .lt
  | some _, none => .gt
  | some a, some b => c a b

theorem optCmpWith_eq_eq {α : Type} (c : α → α → Ordering)
    (hc : ∀ a b, c a b = .eq ↔ a = b) :
    ∀ a b, optCmpWith c a b = .eq ↔ a = b
  | none, none => by simp [optCmpWith]
  | none, some _ => by simp [optCmpWith]
  | some _, none => by simp [optCmpWith]
  | some a, some b => by simp [optCmpWith, hc]

theorem optCmpWith_swap {α : Type} (c : α → α → Ordering)
    (hc : ∀ a b, (c a b).swap = c b a) :
    ∀ a b, (optCmpWith c a b).swap = optCmpWith c b a
  | none, none => rfl
  | none, some _ => rfl
  | some _, none => rfl
  | some a, some b => hc a b

theorem optCmpWith_trans {α : Type} (c : α → α → Ordering)
    (hctr : ∀ a b d, c a b = .lt → c b d = .lt → c a d = .lt) :
    ∀ a b d, optCmpWith c a b = .lt → optCmpWith c b d = .lt → optCmpWith c a d = .lt
  | none, some _, some _, _, _ => rfl
  | some a, some b, some d, h1, h2 => hctr a b d h1 h2

/-- Byte-wise (codepoint-wise) string comparison: the order of Rust's
`String`/`str` and of Postgres `COLLATE "C"` on UTF-8 text. -/
def strCmp (a b : String) : Ordering :=
  listCmpWith lcmp a.data b.data

theorem strCmp_eq_eq (a b : String) : strCmp a b = .eq ↔ a = b := by
  rw [strCmp, listCmpWith_eq_eq lcmp (fun a b => lcmp_eq_eq a b)]
  exact ⟨fun h => String.ext h, fun h => h ▸ rfl⟩

theorem strCmp_swap (a b : String) : (strCmp a b).swap = strCmp b a :=
  listCmpWith_swap lcmp (fun a b => lcmp_swap a b) a.data b.data

theorem strCmp_trans (a b c : String) (h1 : strCmp a b = .lt) (h2 : strCmp b c = .lt) :
    strCmp a c = .lt :=
  listCmpWith_trans lcmp (fun a b => lcmp_eq_eq a b) (fun a b c => lcmp_trans a b c)
    a.data b.data c.data h1 h2

/-! ## `PrimaryKey` (src/primary_key.rs)

The Rust enum derives `PartialEq, Eq, PartialOrd, Ord, Hash`: the derived
total order compares the variant tag first (declaration order
`String < I32 < I64 < UUID < Composite`), then the payload; `Vec` payloads
compare lexicographically. `PrimaryKey.cmp` below spells that derived
order out. -/

/-- An enum representing valid primary key-like constructs
(`src/primary_key.rs` lines 12-26). `i32`/`i64` are `Int`, `uuid::Uuid`
is the `Nat` value of the 128-bit identifier. -/
inductive PrimaryKey : Type where
  | String : String → PrimaryKey
  | I32 : Int → PrimaryKey
  | I64 : Int → PrimaryKey
  | UUID : Nat → PrimaryKey
  | Composite : List PrimaryKey → PrimaryKey

mutual

/-- The derived `Ord` of `PrimaryKey`: variant tag first, payload second. -/
def PrimaryKey.cmp : PrimaryKey → PrimaryKey → Ordering
  | .String a, .String b => strCmp a b
  | .String _, .I32 _ => .lt
  | .String _, .I64 _ => .lt
  | .String _, .UUID _ => .lt
  | .String _, .Composite _ => .lt
  | .I32 _, .String _ => .gt
  | .I32 a, .I32 b => lcmp a b
  | .I32 _, .I64 _ => .lt
  | .I32 _, .UUID _ => .lt
  | .I32 _, .Composite _ => .lt
  | .I64 _, .String _ => .gt
  | .I64 _, .I32 _ => .gt
  | .I64 a, .I64 b => lcmp a b
  | .I64 _, .UUID _ => .lt
  | .I64 _, .Composite _ => .lt
  | .UUID _, .String _ => .gt
  | .UUID _, .I32 _ => .gt
  | .UUID _, .I64 _ => .gt
  | .UUID a, .UUID b => lcmp a b
  | .UUID _, .Composite _ => .lt
  | .Composite _, .String _ => .gt
  | .Composite _, .I32 _ => .gt
  | .Composite _, .I64 _ => .gt
  | .Composite _, .UUID _ => .gt
  | .Composite a, .Composite b => PrimaryKey.cmpList a b

/-- Lexicographic comparison of `Vec<PrimaryKey>` payloads. -/
def PrimaryKey.cmpList : List PrimaryKey → List PrimaryKey → Ordering
  | [], [] => .eq
  | [], _ :: _ => .lt
  | _ :: _, [] => .gt
  | a :: as, b :: bs => (PrimaryKey.cmp a b).then (PrimaryKey.cmpList as bs)

end

/-- The variant tag of a `PrimaryKey`, in the fixed precedence
`Text < Int32 < Int64 < Uuid < Composite` of the Rust declaration. -/
def PrimaryKey.tag : PrimaryKey → Nat
  | .String _ => 0
  | .I32 _ => 1
  | .I64 _ => 2
  | .UUID _ => 3
  | .Composite _ => 4

/-- On values with distinct tags, the derived order is the tag order. -/
theorem pkCmp_of_tag_ne (a b : PrimaryKey) (h : a.tag ≠ b.tag) :
    PrimaryKey.cmp a b = lcmp a.tag b.tag := by
  cases a <;> cases b <;> simp [PrimaryKey.cmp, PrimaryKey.tag, lcmp] at h ⊢

theorem pkTag_eq_zero (a : PrimaryKey) (h : a.tag = 0) : ∃ s, a = .String s := by
  cases a <;> simp [PrimaryKey.tag] at h ⊢

theorem pkTag_eq_one (a : PrimaryKey) (h : a.tag = 1) : ∃ i, a = .I32 i := by
  cases a <;> simp [PrimaryKey.tag] at h ⊢

theorem pkTag_eq_two (a : PrimaryKey) (h : a.tag = 2) : ∃ i, a = .I64 i := by
  cases a <;> simp [PrimaryKey.tag] at h ⊢

theorem pkTag_eq_three (a : PrimaryKey) (h : a.tag = 3) : ∃ u, a = .UUID u := by
  cases a <;> simp [PrimaryKey.tag] at h ⊢

theorem pkTag_eq_four (a : PrimaryKey) (h : a.tag = 4) : ∃ v, a = .Composite v := by
  cases a <;> simp [PrimaryKey.tag] at h ⊢

theorem pkTag_le_four (a : PrimaryKey) : a.tag ≤ 4 := by
  cases a <;> simp [PrimaryKey.tag]

mutual

theorem pkCmp_eq_eq : ∀ a b : PrimaryKey, PrimaryKey.cmp a b = .eq ↔ a = b
  | .String a, .String b => by simp [PrimaryKey.cmp, strCmp_eq_eq]
  | .String _, .I32 _ => by simp [PrimaryKey.cmp]
  | .String _, .I64 _ => by simp [PrimaryKey.cmp]
  | .String _, .UUID _ => by simp [PrimaryKey.cmp]
  | .String _, .Composite _ => by simp [PrimaryKey.cmp]
  | .I32 _, .String _ => by simp [PrimaryKey.cmp]
  | .I32 a, .I32 b => by simp [PrimaryKey.cmp, lcmp_eq_eq]
  | .I32 _, .I64 _ => by simp [PrimaryKey.cmp]
  | .I32 _, .UUID _ => by simp [PrimaryKey.cmp]
  | .I32 _, .Composite _ => by simp [PrimaryKey.cmp]
  | .I64 _, .String _ => by simp [PrimaryKey.cmp]
  | .I64 _, .I32 _ => by simp [PrimaryKey.cmp]
  | .I64 a, .I64 b => by simp [PrimaryKey.cmp, lcmp_eq_eq]
  | .I64 _, .UUID _ => by simp [PrimaryKey.cmp]
  | .I64 _, .Composite _ => by simp [PrimaryKey.cmp]
  | .UUID _, .String _ => by simp [PrimaryKey.cmp]
  | .UUID _, .I32 _ => by simp [PrimaryKey.cmp]
  | .UUID _, .I64 _ => by simp [PrimaryKey.cmp]
  | .UUID a, .UUID b => by simp [PrimaryKey.cmp, lcmp_eq_eq]
  | .UUID _, .Composite _ => by simp [PrimaryKey.cmp]
  | .Composite _, .String _ => by simp [PrimaryKey.cmp]
  | .Composite _, .I32 _ => by simp [PrimaryKey.cmp]
  | .Composite _, .I64 _ => by simp [PrimaryKey.cmp]
  | .Composite _, .UUID _ => by simp [PrimaryKey.cmp]
  | .Composite a, .Composite b => by
    simp only [PrimaryKey.cmp, PrimaryKey.Composite.injEq]
    exact pkCmpList_eq_eq a b

theorem pkCmpList_eq_eq : ∀ as bs : List PrimaryKey, PrimaryKey.cmpList as bs = .eq ↔ as = bs
  | [], [] => by simp [PrimaryKey.cmpList]
  | [], _ :: _ => by simp [PrimaryKey.cmpList]
  | _ :: _, [] => by simp [PrimaryKey.cmpList]
  | a :: as, b :: bs => by
    rw [PrimaryKey.cmpList, ordThen_eq_eq, pkCmp_eq_eq a b, pkCmpList_eq_eq as bs]
    simp

end

instance : DecidableEq PrimaryKey :=
  fun a b => decidable_of_iff (PrimaryKey.cmp a b = .eq) (pkCmp_eq_eq a b)

mutual

theorem pkCmp_swap : ∀ a b : PrimaryKey, (PrimaryKey.cmp a b).swap = PrimaryKey.cmp b a
  | .String a, .String b => strCmp_swap a b
  | .String _, .I32 _ => rfl
  | .String _, .I64 _ => rfl
  | .String _, .UUID _ => rfl
  | .String _, .Composite _ => rfl
  | .I32 _, .String _ => rfl
  | .I32 a, .I32 b => lcmp_swap a b
  | .I32 _, .I64 _ => rfl
  | .I32 _, .UUID _ => rfl
  | .I32 _, .Composite _ => rfl
  | .I64 _, .String _ => rfl
  | .I64 _, .I32 _ => rfl
  | .I64 a, .I64 b => lcmp_swap a b
  | .I64 _, .UUID _ => rfl
  | .I64 _, .Composite _ => rfl
  | .UUID _, .String _ => rfl
  | .UUID _, .I32 _ => rfl
  | .UUID _, .I64 _ => rfl
  | .UUID a, .UUID b => lcmp_swap a b
  | .UUID _, .Composite _ => rfl
  | .Composite _, .String _ => rfl
  | .Composite _, .I32 _ => rfl
  | .Composite _, .I64 _ => rfl
  | .Composite _, .UUID _ => rfl
  | .Composite a, .Composite b => pkCmpList_swap a b

theorem pkCmpList_swap : ∀ as bs : List PrimaryKey,
    (PrimaryKey.cmpList as bs).swap = PrimaryKey.cmpList bs as
  | [], [] => rfl
  | [], _ :: _ => rfl
  | _ :: _, [] => rfl
  | a :: as, b :: bs => by
    rw [PrimaryKey.cmpList, PrimaryKey.cmpList, ordThen_swap, pkCmp_swap a b,
      pkCmpList_swap as bs]

end

theorem pkCmp_lt_tag_le (a b : PrimaryKey) (h : PrimaryKey.cmp a b = .lt) :
    a.tag ≤ b.tag := by
  by_contra hlt
  push_neg at hlt
  rw [pkCmp_of_tag_ne a b (Nat.ne_of_gt hlt), (lcmp_eq_gt a.tag b.tag).mpr hlt] at h
  simp at h

mutual

theorem pkCmp_trans (a b c : PrimaryKey) (h1 : PrimaryKey.cmp a b = .lt)
    (h2 : PrimaryKey.cmp b c = .lt) : PrimaryKey.cmp a c = .lt := by
  have hab : a.tag ≤ b.tag := pkCmp_lt_tag_le a b h1
  have hbc : b.tag ≤ c.tag := pkCmp_lt_tag_le b c h2
  by_cases htac : PrimaryKey.tag a = PrimaryKey.tag c
  · have hb : a.tag = b.tag := Nat.le_antisymm hab (htac ▸ hbc)
    cases a with
    | String s =>
      obtain ⟨s2, rfl⟩ := pkTag_eq_zero b hb.symm
      obtain ⟨s3, rfl⟩ := pkTag_eq_zero c htac.symm
      simp only [PrimaryKey.cmp] at h1 h2 ⊢
      exact strCmp_trans s s2 s3 h1 h2
    | I32 i =>
      obtain ⟨i2, rfl⟩ := pkTag_eq_one b hb.symm
      obtain ⟨i3, rfl⟩ := pkTag_eq_one c htac.symm
      simp only [PrimaryKey.cmp] at h1 h2 ⊢
      exact lcmp_trans i i2 i3 h1 h2
    | I64 i =>
      obtain ⟨i2, rfl⟩ := pkTag_eq_two b hb.symm
      obtain ⟨i3, rfl⟩ := pkTag_eq_two c htac.symm
      simp only [PrimaryKey.cmp] at h1 h2 ⊢
      exact lcmp_trans i i2 i3 h1 h2
    | UUID u =>
      obtain ⟨u2, rfl⟩ := pkTag_eq_three b hb.symm
      obtain ⟨u3, rfl⟩ := pkTag_eq_three c htac.symm
      simp only [PrimaryKey.cmp] at h1 h2 ⊢
      exact lcmp_trans u u2 u3 h1 h2
    | Composite v =>
      obtain ⟨v2, rfl⟩ := pkTag_eq_four b hb.symm
      obtain ⟨v3, rfl⟩ := pkTag_eq_four c htac.symm
      simp only [PrimaryKey.cmp] at h1 h2 ⊢
      exact pkCmpList_trans v v2 v3 h1 h2
  · have hlt : a.tag < c.tag := Nat.lt_of_le_of_ne (Nat.le_trans hab hbc) htac
    rw [pkCmp_of_tag_ne a c (Nat.ne_of_lt hlt)]
    exact (lcmp_eq_lt a.tag c.tag).mpr hlt

theorem pkCmpList_trans (as bs cs : List PrimaryKey)
    (h1 : PrimaryKey.cmpList as bs = .lt) (h2 : PrimaryKey.cmpList bs cs = .lt) :
    PrimaryKey.cmpList as cs = .lt := by
  match as, bs, cs with
  | [], [], _ => simp [PrimaryKey.cmpList] at h1
  | _ :: _, [], _ => simp [PrimaryKey.cmpList] at h1
  | _, _ :: _, [] => simp [PrimaryKey.cmpList] at h2
  | [], _ :: _, _ :: _ => rfl
  | a :: as1, b :: bs1, c :: cs1 =>
    rw [PrimaryKey.cmpList, ordThen_eq_lt] at h1 h2 ⊢
    rcases h1 with h1 | ⟨h1e, h1l⟩
    · rcases h2 with h2 | ⟨h2e, h2l⟩
      · exact Or.inl (pkCmp_trans a b c h1 h2)
      · exact Or.inl (((pkCmp_eq_eq b c).mp h2e) ▸ h1)
    · rcases h2 with h2 | ⟨h2e, h2l⟩
      · exact Or.inl (((pkCmp_eq_eq a b).mp h1e) ▸ h2)
      · exact Or.inr ⟨(pkCmp_eq_eq a c).mpr
          (((pkCmp_eq_eq a b).mp h1e).trans ((pkCmp_eq_eq b c).mp h2e)),
          pkCmpList_trans as1 bs1 cs1 h1l h2l⟩

end

/-- `impl From<Vec<PrimaryKey>> for PrimaryKey`
(src/primary_key.rs lines 82-89): a one-element vector is unwrapped to its
single element, anything else becomes `Composite`. -/
def pkFromVec : List PrimaryKey → PrimaryKey
  | [x] => x
  | v => .Composite v

mutual

/-- `impl Display for PrimaryKey` (src/primary_key.rs lines 91-104):
strings and integers render literally, a composite joins its elements with
`", "`. The external `uuid` crate's rendering is modelled as the numeral
of the `Nat` value. -/
def pkDisplay : PrimaryKey → String
  | .String s => s
  | .I32 i => toString i
  | .I64 i => toString i
  | .UUID u => toString u
  | .Composite v => pkDisplayList v

/-- Elements joined by `", "` (the `join` of the Rust `Display` impl). -/
def pkDisplayList : List PrimaryKey → String
  | [] => ""
  | [x] => pkDisplay x
  | x :: y :: xs => pkDisplay x ++ ", " ++ pkDisplayList (y :: xs)

end

/-- The strict order induced by the derived comparison. -/
def pkLt (a b : PrimaryKey) : Prop := PrimaryKey.cmp a b = .lt

/-- On `Composite` payloads the derived comparison is exactly Mathlib's
lexicographic order on lists. -/
theorem pkCmpList_lt_iff_lex : ∀ as bs : List PrimaryKey,
    PrimaryKey.cmpList as bs = .lt ↔ List.Lex pkLt as bs
  | [], [] => by
    simp only [PrimaryKey.cmpList]
    exact ⟨fun h => by simp at h, fun h => nomatch h⟩
  | [], _ :: _ => by
    simp only [PrimaryKey.cmpList]
    exact ⟨fun _ => List.Lex.nil, fun _ => trivial⟩
  | _ :: _, [] => by
    simp only [PrimaryKey.cmpList]
    exact ⟨fun h => by simp at h, fun h => nomatch h⟩
  | a :: as, b :: bs => by
    rw [PrimaryKey.cmpList, ordThen_eq_lt]
    constructor
    · rintro (h | ⟨he, hl⟩)
      · exact List.Lex.rel h
      · rw [(pkCmp_eq_eq a b).mp he]
        exact List.Lex.cons ((pkCmpList_lt_iff_lex as bs).mp hl)
    · intro h
      cases h with
      | rel h => exact Or.inl h
      | cons h => exact Or.inr ⟨(pkCmp_eq_eq a a).mpr rfl, (pkCmpList_lt_iff_lex as bs).mpr h⟩

/-! ## Order-relation helpers shared by the sorted-sequence reasoning -/

theorem cmpLe_total {α : Type} (c : α → α → Ordering)
    (hswap : ∀ a b, (c a b).swap = c b a) (a b : α) : c a b ≠ .gt ∨ c b a ≠ .gt := by
  by_cases h : c a b = .gt
  · right
    intro h2
    have hs := hswap a b
    rw [h, h2] at hs
    simp [Ordering.swap] at hs
  · exact Or.inl h

theorem cmpLe_trans {α : Type} (c : α → α → Ordering)
    (heq : ∀ a b, c a b = .eq ↔ a = b)
    (htr : ∀ a b d, c a b = .lt → c b d = .lt → c a d = .lt)
    (a b d : α) (h1 : c a b ≠ .gt) (h2 : c b d ≠ .gt) : c a d ≠ .gt := by
  cases hab : c a b with
  | eq => rw [(heq a b).mp hab]; exact h2
  | gt => exact absurd hab h1
  | lt =>
    cases hbd : c b d with
    | eq => rw [← (heq b d).mp hbd]; exact h1
    | gt => exact absurd hbd h2
    | lt => rw [htr a b d hab hbd]; simp

/-! ## Catalog model

The external `sql_traits` catalog is consumed through `TableLike`,
`ColumnLike`, `ForeignKeyLike` and `DatabaseLike`. Tables, columns and
foreign keys are modelled as descriptors carrying exactly the accessors
the core reads. -/

/-- A table descriptor: schema qualifier and name (`table_schema()`,
`table_name()`). -/
structure Table where
  table_schema : Option String
  table_name : String
deriving DecidableEq

/-- Modelled from the spec: the `Ord` of the external `sql_traits` table
type is not in this repository; per the spec a table's identity and order
is its schema-qualified name. -/
def tableCmp (a b : Table) : Ordering :=
  (optCmpWith strCmp a.table_schema b.table_schema).then (strCmp a.table_name b.table_name)

theorem tableCmp_eq_eq (a b : Table) : tableCmp a b = .eq ↔ a = b := by
  cases a; cases b
  simp [tableCmp, ordThen_eq_eq, optCmpWith_eq_eq strCmp strCmp_eq_eq, strCmp_eq_eq]

theorem tableCmp_swap (a b : Table) : (tableCmp a b).swap = tableCmp b a := by
  rw [tableCmp, tableCmp, ordThen_swap, optCmpWith_swap strCmp strCmp_swap, strCmp_swap]

theorem tableCmp_trans (a b c : Table) (h1 : tableCmp a b = .lt) (h2 : tableCmp b c = .lt) :
    tableCmp a c = .lt := by
  rw [tableCmp, ordThen_eq_lt] at h1 h2 ⊢
  rcases h1 with h1 | ⟨h1e, h1l⟩
  · rcases h2 with h2 | ⟨h2e, h2l⟩
    · exact Or.inl (optCmpWith_trans strCmp strCmp_trans _ _ _ h1 h2)
    · exact Or.inl (((optCmpWith_eq_eq strCmp strCmp_eq_eq _ _).mp h2e) ▸ h1)
  · rcases h2 with h2 | ⟨h2e, h2l⟩
    · exact Or.inl (((optCmpWith_eq_eq strCmp strCmp_eq_eq _ _).mp h1e) ▸ h2)
    · exact Or.inr ⟨(optCmpWith_eq_eq strCmp strCmp_eq_eq _ _).mpr
        (((optCmpWith_eq_eq strCmp strCmp_eq_eq _ _).mp h1e).trans
          ((optCmpWith_eq_eq strCmp strCmp_eq_eq _ _).mp h2e)),
        strCmp_trans _ _ _ h1l h2l⟩

/-- A column descriptor: `column_name()` and `normalized_data_type()`
(one of `"TEXT"`, `"VARCHAR"`, `"INT"`, `"UUID"`, ...). -/
structure Column where
  column_name : String
  normalized_data_type : String
deriving DecidableEq

/-- Modelled from the spec: the `Ord`/`Eq` of the external column type is
not in this repository; a column's identity is its descriptor fields. -/
def columnCmp (a b : Column) : Ordering :=
  (strCmp a.column_name b.column_name).then
    (strCmp a.normalized_data_type b.normalized_data_type)

theorem columnCmp_eq_eq (a b : Column) : columnCmp a b = .eq ↔ a = b := by
  cases a; cases b
  simp [columnCmp, ordThen_eq_eq, strCmp_eq_eq]

theorem columnCmp_swap (a b : Column) : (columnCmp a b).swap = columnCmp b a := by
  rw [columnCmp, columnCmp, ordThen_swap, strCmp_swap, strCmp_swap]

theorem columnCmp_trans (a b c : Column) (h1 : columnCmp a b = .lt)
    (h2 : columnCmp b c = .lt) : columnCmp a c = .lt := by
  rw [columnCmp, ordThen_eq_lt] at h1 h2 ⊢
  rcases h1 with h1 | ⟨h1e, h1l⟩
  · rcases h2 with h2 | ⟨h2e, h2l⟩
    · exact Or.inl (strCmp_trans _ _ _ h1 h2)
    · exact Or.inl (((strCmp_eq_eq _ _).mp h2e) ▸ h1)
  · rcases h2 with h2 | ⟨h2e, h2l⟩
    · exact Or.inl (((strCmp_eq_eq _ _).mp h1e) ▸ h2)
    · exact Or.inr ⟨(strCmp_eq_eq _ _).mpr
        (((strCmp_eq_eq _ _).mp h1e).trans ((strCmp_eq_eq _ _).mp h2e)),
        strCmp_trans _ _ _ h1l h2l⟩

/-! ## `Node` (src/node.rs) and `EdgeClass` (src/edge_class.rs) -/

/-- A node-like entity: originating table plus primary-key value
(src/node.rs lines 10-16). -/
structure Node where
  table : Table
  primary_key : PrimaryKey
deriving DecidableEq

/-- `Ord for Node` (src/node.rs lines 39-46): table first, on equality the
primary key. -/
def Node.cmp (a b : Node) : Ordering :=
  (tableCmp a.table b.table).then (PrimaryKey.cmp a.primary_key b.primary_key)

theorem nodeCmp_eq_eq (a b : Node) : Node.cmp a b = .eq ↔ a = b := by
  cases a; cases b
  simp [Node.cmp, ordThen_eq_eq, tableCmp_eq_eq, pkCmp_eq_eq]

theorem nodeCmp_swap (a b : Node) : (Node.cmp a b).swap = Node.cmp b a := by
  rw [Node.cmp, Node.cmp, ordThen_swap, tableCmp_swap, pkCmp_swap]

theorem nodeCmp_trans (a b c : Node) (h1 : Node.cmp a b = .lt) (h2 : Node.cmp b c = .lt) :
    Node.cmp a c = .lt := by
  rw [Node.cmp, ordThen_eq_lt] at h1 h2 ⊢
  rcases h1 with h1 | ⟨h1e, h1l⟩
  · rcases h2 with h2 | ⟨h2e, h2l⟩
    · exact Or.inl (tableCmp_trans _ _ _ h1 h2)
    · exact Or.inl (((tableCmp_eq_eq _ _).mp h2e) ▸ h1)
  · rcases h2 with h2 | ⟨h2e, h2l⟩
    · exact Or.inl (((tableCmp_eq_eq _ _).mp h1e) ▸ h2)
    · exact Or.inr ⟨(tableCmp_eq_eq _ _).mpr
        (((tableCmp_eq_eq _ _).mp h1e).trans ((tableCmp_eq_eq _ _).mp h2e)),
        pkCmp_trans _ _ _ h1l h2l⟩

/-- `impl Display for Node` (src/node.rs lines 77-84):
`schema.table(primary_key)`. -/
def nodeDisplay (n : Node) : String :=
  (match n.table.table_schema with
    | some s => s ++ "."
    | none => "") ++ n.table.table_name ++ "(" ++ pkDisplay n.primary_key ++ ")"

/-- An edge class: host table plus the host-side foreign-key columns
(src/edge_class.rs lines 8-14). -/
structure EdgeClass where
  host_table : Table
  columns : List Column
deriving DecidableEq

/-- `Ord for EdgeClass` (src/edge_class.rs lines 30-37): host table first,
on equality the column sequence lexicographically. -/
def EdgeClass.cmp (a b : EdgeClass) : Ordering :=
  (tableCmp a.host_table b.host_table).then (listCmpWith columnCmp a.columns b.columns)

theorem ecCmp_eq_eq (a b : EdgeClass) : EdgeClass.cmp a b = .eq ↔ a = b := by
  cases a; cases b
  simp [EdgeClass.cmp, ordThen_eq_eq, tableCmp_eq_eq,
    listCmpWith_eq_eq columnCmp columnCmp_eq_eq]

theorem ecCmp_swap (a b : EdgeClass) : (EdgeClass.cmp a b).swap = EdgeClass.cmp b a := by
  rw [EdgeClass.cmp, EdgeClass.cmp, ordThen_swap, tableCmp_swap,
    listCmpWith_swap columnCmp columnCmp_swap]

theorem ecCmp_trans (a b c : EdgeClass) (h1 : EdgeClass.cmp a b = .lt)
    (h2 : EdgeClass.cmp b c = .lt) : EdgeClass.cmp a c = .lt := by
  rw [EdgeClass.cmp, ordThen_eq_lt] at h1 h2 ⊢
  rcases h1 with h1 | ⟨h1e, h1l⟩
  · rcases h2 with h2 | ⟨h2e, h2l⟩
    · exact Or.inl (tableCmp_trans _ _ _ h1 h2)
    · exact Or.inl (((tableCmp_eq_eq _ _).mp h2e) ▸ h1)
  · rcases h2 with h2 | ⟨h2e, h2l⟩
    · exact Or.inl (((tableCmp_eq_eq _ _).mp h1e) ▸ h2)
    · exact Or.inr ⟨(tableCmp_eq_eq _ _).mpr
        (((tableCmp_eq_eq _ _).mp h1e).trans ((tableCmp_eq_eq _ _).mp h2e)),
        listCmpWith_trans columnCmp columnCmp_eq_eq columnCmp_trans _ _ _ h1l h2l⟩

/-- `impl Display for EdgeClass` (src/edge_class.rs lines 62-77):
`schema.host_table(col, col, ...)`. -/
def ecDisplay (e : EdgeClass) : String :=
  (match e.host_table.table_schema with
    | some s => s ++ "."
    | none => "") ++ e.host_table.table_name ++ "(" ++
    String.intercalate ", " (e.columns.map (·.column_name)) ++ ")"

/-! ## Non-strict orders used by the sorts and the sortedness assertions -/

/-- `a ≤ b` for primary keys (`w[0] <= w[1]` in Rust terms). -/
def pkLe (a b : PrimaryKey) : Prop := PrimaryKey.cmp a b ≠ .gt

instance : DecidableRel pkLe :=
  fun a b => inferInstanceAs (Decidable (PrimaryKey.cmp a b ≠ .gt))

instance : IsTotal PrimaryKey pkLe :=
  ⟨fun a b => cmpLe_total PrimaryKey.cmp pkCmp_swap a b⟩

instance : IsTrans PrimaryKey pkLe :=
  ⟨fun a b c => cmpLe_trans PrimaryKey.cmp pkCmp_eq_eq pkCmp_trans a b c⟩

/-- `a ≤ b` for nodes. -/
def nodeLe (a b : Node) : Prop := Node.cmp a b ≠ .gt

instance : DecidableRel nodeLe :=
  fun a b => inferInstanceAs (Decidable (Node.cmp a b ≠ .gt))

instance : IsTotal Node nodeLe :=
  ⟨fun a b => cmpLe_total Node.cmp nodeCmp_swap a b⟩

instance : IsTrans Node nodeLe :=
  ⟨fun a b c => cmpLe_trans Node.cmp nodeCmp_eq_eq nodeCmp_trans a b c⟩

/-- `a ≤ b` for edge classes. -/
def ecLe (a b : EdgeClass) : Prop := EdgeClass.cmp a b ≠ .gt

instance : DecidableRel ecLe :=
  fun a b => inferInstanceAs (Decidable (EdgeClass.cmp a b ≠ .gt))

instance : IsTotal EdgeClass ecLe :=
  ⟨fun a b => cmpLe_total EdgeClass.cmp ecCmp_swap a b⟩

instance : IsTrans EdgeClass ecLe :=
  ⟨fun a b c => cmpLe_trans EdgeClass.cmp ecCmp_eq_eq ecCmp_trans a b c⟩

/-! ## Database model

`KGLikeDB` is implemented for any `DatabaseLike`; the catalog accessors
the core reads (`tables()`, `primary_key_columns`, `foreign_keys`,
`is_extended`, `ancestral_extended_tables`, `is_referenced_primary_key`,
`host_columns`, `referenced_table`, `table_id`) are modelled as fields,
and each SQL query's result set is part of the descriptor. -/

/-- A raw column value as returned by the database. -/
inductive Value : Type where
  | text : String → Value
  | int : Int → Value
  | uuid : Nat → Value
deriving DecidableEq

/-- A foreign key of a host table, together with the result set of the
edge-pass query over the host table (host primary-key projection and
foreign-key-column projection per row, `none` for SQL `NULL`; diesel's
typed load is modelled as already-decoded optional key values). -/
structure ForeignKey where
  host_columns : List Column
  referenced_table : Table
  is_referenced_primary_key : Bool
  rows : List (Option PrimaryKey × Option PrimaryKey)
  load_error : Option String
deriving DecidableEq

/-- A table descriptor: the catalog accessors plus the primary-key
projection of the table's rows (one entry per stored row, in storage
order — the node-pass `ORDER BY` is modelled at the point of use). -/
structure TableInfo where
  table : Table
  primary_key_columns : List Column
  is_extended : Bool
  ancestral_extended_tables : List Table
  foreign_keys : List ForeignKey
  pk_rows : List (List Value)
  load_error : Option String
deriving DecidableEq

/-- The database: the catalog's ordered table enumeration. -/
structure Database where
  tables : List TableInfo
deriving DecidableEq

/-- `DatabaseLike::table_id` (external, modelled from the spec: the
catalog-assigned rank is the position in the `tables()` enumeration, which
is also the row index of the table in the `node_classes` relation). -/
def Database.table_id (db : Database) (t : Table) : Option Nat :=
  List.findIdx? (fun ti => ti.table = t) db.tables

/-- `Error` (src/errors.rs lines 6-20). The diesel and IO payloads are
opaque strings. -/
inductive Error : Type where
  | Diesel : String → Error
  | Io : String → Error
  | NodeNotFound : String → Error
  | EdgeClassNotFound : String → Error
deriving DecidableEq

/-! ## Node pass (`KGLikeDB::nodes`, src/traits/kg_like_db.rs lines 33-111) -/

/-- The typed decode paths of the node pass, one per supported arm of the
`match column_types.as_slice()` dispatch. -/
inductive NodePath : Type where
  | text : NodePath
  | int : NodePath
  | uuid : NodePath
deriving DecidableEq

/-- The node-pass type dispatch (`match column_types.as_slice()`, lines
76-108): Rust's slice patterns `["TEXT" | "VARCHAR"]`, `["INT"]`,
`["UUID"]`; everything else falls into the `unimplemented!` arm,
modelled as `none`. -/
def nodeDispatch : List String → Option NodePath
  | [t] =>
    if t = "TEXT" ∨ t = "VARCHAR" then some .text
    else if t = "INT" then some .int
    else if t = "UUID" then some .uuid
    else none
  | _ => none

/-- Decoding of one projected row by the selected typed path
(`SingleTextPK` / `SingleIntegerPK` / `SingleUuidPK` followed by
`row.first.into()`). -/
def decodePK : NodePath → List Value → Option PrimaryKey
  | .text, [.text s] => some (.String s)
  | .int, [.int i] => some (.I32 i)
  | .uuid, [.uuid u] => some (.UUID u)
  | _, _ => none

/-- Outcome of the per-table closure of `nodes()`: the iterator item is
`Result<Vec<Node>, diesel::Error>`; the `unimplemented!` arm is a panic,
carried separately from the `Err` channel. -/
inductive NodeResult : Type where
  | ok : List Node → NodeResult
  | err : String → NodeResult
  | unimplemented : List String → NodeResult
deriving DecidableEq

/-- The per-table body of `nodes()` (lines 40-110): skip tables whose
primary key is absent or wider than 3 columns; dispatch on the normalized
column types; load the rows ordered by primary key (the SQL
`ORDER BY ... COLLATE "C"` is modelled by sorting the decoded keys, whose
order `pkLe` agrees with the byte-ordinal collation); one `Node` per row. -/
def nodesForTable (t : TableInfo) : NodeResult :=
  if t.primary_key_columns.length = 0 ∨ 3 < t.primary_key_columns.length then .ok []
  else
    match nodeDispatch (t.primary_key_columns.map (·.normalized_data_type)) with
    | none => .unimplemented (t.primary_key_columns.map (·.normalized_data_type))
    | some p =>
      match t.load_error with
      | some e => .err e
      | none =>
        match t.pk_rows.mapM (decodePK p) with
        | none => .err "deserialization"
        | some ks => .ok ((List.insertionSort pkLe ks).map (fun k => Node.mk t.table k))

/-- `nodes()` itself: one item per table that is not extended by another
(`self.tables().filter(|table| !table.is_extended(self))`, line 40). -/
def nodes (db : Database) : List NodeResult :=
  (db.tables.filter (fun t => !t.is_extended)).map nodesForTable

/-- `number_of_nodes` (lines 118-136): sums `SELECT COUNT(*)` over every
table of the catalog; a table's row count is the length of its row list. -/
def number_of_nodes (db : Database) : Nat :=
  db.tables.foldl (fun total t => total + t.pk_rows.length) 0

/-! ## Edge classes (`KGLikeDB::edge_classes`, lines 147-165) -/

/-- `edge_classes()`: per table, the foreign keys that reference the
referenced table's primary key, one `EdgeClass` each, sorted per table
(`sort_unstable`; its result is the unique sorted permutation, which
insertion sort also produces) and concatenated by `flat_map`. -/
def edge_classes (db : Database) : List EdgeClass :=
  db.tables.flatMap (fun t =>
    List.insertionSort ecLe
      (t.foreign_keys.filterMap (fun fk =>
        if fk.is_referenced_primary_key then some (EdgeClass.mk t.table fk.host_columns)
        else none)))

/-! ## Edge pass (`KGLikeDB::edges`, lines 173-388) -/

/-- The typed decode-path pairs of the edge pass, one per supported arm of
the `match (host_pk_column_types.as_slice(), host_column_types.as_slice())`
dispatch (lines 240-386). -/
inductive EdgePath : Type where
  | textToText : EdgePath
  | intToInt : EdgePath
  | uuidToUuid : EdgePath
  | intToUuid : EdgePath
  | uuidToInt : EdgePath
  | varcharToUuid : EdgePath
  | uuidToVarchar : EdgePath
deriving DecidableEq

/-- The edge-pass type dispatch: Rust's slice-pair patterns, in order;
the first arm is `(["TEXT" | "VARCHAR"], ["TEXT" | "VARCHAR"])`; the
catch-all is the `unimplemented!` arm, modelled as `none`. -/
def edgeDispatch : List String → List String → Option EdgePath
  | [pk], [fk] =>
    if (pk = "TEXT" ∨ pk = "VARCHAR") ∧ (fk = "TEXT" ∨ fk = "VARCHAR") then some .textToText
    else if pk = "INT" ∧ fk = "INT" then some .intToInt
    else if pk = "UUID" ∧ fk = "UUID" then some .uuidToUuid
    else if pk = "INT" ∧ fk = "UUID" then some .intToUuid
    else if pk = "UUID" ∧ fk = "INT" then some .uuidToInt
    else if pk = "VARCHAR" ∧ fk = "UUID" then some .varcharToUuid
    else if pk = "UUID" ∧ fk = "VARCHAR" then some .uuidToVarchar
    else none
  | _, _ => none

/-- Outcome of the per-foreign-key closure of `edges()`; as for the node
pass, `unimplemented!` is a panic distinct from the `Err` channel. -/
inductive EdgeResult : Type where
  | ok : List (Node × Node × EdgeClass) → EdgeResult
  | err : String → EdgeResult
  | unimplemented : List String → List String → EdgeResult
deriving DecidableEq

/-- The per-row `filter_map` of every supported arm (e.g. lines 250-259):
`row.first?` / `row.first_host?` skip the row on any `NULL`, otherwise the
host node, the referenced node and the edge class are produced. -/
def pairUp (host referenced : Table) (ec : EdgeClass) :
    List (Option PrimaryKey × Option PrimaryKey) → List (Node × Node × EdgeClass) :=
  List.filterMap (fun r =>
    match r.1, r.2 with
    | some a, some b => some (Node.mk host a, Node.mk referenced b, ec)
    | _, _ => none)

/-- The per-foreign-key body of `edges()` (lines 209-387): dispatch on the
(host primary key, host foreign-key columns) type pair; on a supported
pair load the projected rows and pair them up, on anything else hit the
`unimplemented!` arm before any row is read. -/
def edgesForJob (t : TableInfo) (fk : ForeignKey) : EdgeResult :=
  match edgeDispatch (t.primary_key_columns.map (·.normalized_data_type))
      (fk.host_columns.map (·.normalized_data_type)) with
  | none =>
    .unimplemented (t.primary_key_columns.map (·.normalized_data_type))
      (fk.host_columns.map (·.normalized_data_type))
  | some _ =>
    match fk.load_error with
    | some e => .err e
    | none =>
      .ok (pairUp t.table fk.referenced_table (EdgeClass.mk t.table fk.host_columns) fk.rows)

/-- The foreign keys the edge pass visits (lines 185-208): per table, the
foreign keys that reference a primary key, provided the host table itself
has a 1-3-column primary key; other foreign keys are filtered out before
any dispatch. -/
def edgeJobs (db : Database) : List (TableInfo × ForeignKey) :=
  db.tables.flatMap (fun t =>
    t.foreign_keys.filterMap (fun fk =>
      if !fk.is_referenced_primary_key ∨ t.primary_key_columns.length = 0 ∨
          3 < t.primary_key_columns.length then none
      else some (t, fk)))

/-- `edges()` itself: one result per visited foreign key. -/
def edges (db : Database) : List EdgeResult :=
  (edgeJobs db).map (fun j => edgesForJob j.1 j.2)

/-! ## Binary search (`slice::binary_search`, std — external)

`write_kg_csvs` resolves node and edge-class IDs with
`Vec::binary_search`, `Ok(index)` on a hit and `Err(insertion point)` on a
miss. The standard algorithm is modelled by the usual halving loop; the
out-of-range access that cannot occur on the windows the loop visits is
defaulted to the key itself. -/

/-- Rust's `Result<usize, usize>` of `binary_search`. -/
inductive SearchResult : Type where
  | found : Nat → SearchResult
  | notFound : Nat → SearchResult
deriving DecidableEq

/-- The halving loop of `binary_search_by` on the window `[left, right)`. -/
def binarySearchGo {α : Type} (c : α → α → Ordering) (xs : List α) (key : α)
    (left right : Nat) : SearchResult :=
  if _h : left < right then
    match c (xs.getD ((left + right) / 2) key) key with
    | .lt => binarySearchGo c xs key ((left + right) / 2 + 1) right
    | .gt => binarySearchGo c xs key left ((left + right) / 2)
    | .eq => .found ((left + right) / 2)
  else .notFound left
termination_by right - left
decreasing_by
  · omega
  · omega

/-- `xs.binary_search(&key)` with comparator `c`. -/
def binarySearch {α : Type} (c : α → α → Ordering) (xs : List α) (key : α) : SearchResult :=
  binarySearchGo c xs key 0 xs.length

/-- On a list sorted by the (lawful) comparator, the halving loop finds
every element present in its window. -/
theorem binarySearchGo_finds {α : Type} (c : α → α → Ordering)
    (heq : ∀ a b, c a b = .eq ↔ a = b)
    (hswap : ∀ a b, (c a b).swap = c b a)
    (xs : List α) (key : α) (left right : Nat)
    (hsorted : List.Pairwise (fun a b => c a b ≠ .gt) xs)
    (hr : right ≤ xs.length)
    (i : Nat) (hil : left ≤ i) (hir : i < right) (hk : xs[i]? = some key) :
    ∃ j, binarySearchGo c xs key left right = .found j := by
  have hlr : left < right := Nat.lt_of_le_of_lt hil hir
  have hmidlt : (left + right) / 2 < xs.length := by omega
  have hilen : i < xs.length := by omega
  have hkey : xs[i] = key := by
    rw [List.getElem?_eq_getElem hilen] at hk
    exact Option.some.inj hk
  have hget : xs.getD ((left + right) / 2) key = xs[(left + right) / 2] := by
    rw [List.getD_eq_getElem?_getD, List.getElem?_eq_getElem hmidlt]
    rfl
  have hsg : ∀ a b : Fin xs.length, (a : Nat) < (b : Nat) →
      c (xs.get a) (xs.get b) ≠ .gt := by
    intro a b hab
    simp only [List.get_eq_getElem]
    exact (List.pairwise_iff_getElem.mp hsorted) a b a.isLt b.isLt hab
  cases hcv : c xs[(left + right) / 2] key with
  | eq =>
    refine ⟨(left + right) / 2, ?_⟩
    rw [binarySearchGo]
    simp only [dif_pos hlr, hget, hcv]
  | lt =>
    have hgt : (left + right) / 2 < i := by
      rcases Nat.lt_trichotomy i ((left + right) / 2) with h | h | h
      · exfalso
        have hle := hsg ⟨i, hilen⟩ ⟨(left + right) / 2, hmidlt⟩ h
        simp only [List.get_eq_getElem, hkey] at hle
        apply hle
        rw [← hswap, hcv]
        rfl
      · exfalso
        subst h
        rw [hkey, (heq key key).mpr rfl] at hcv
        exact Ordering.noConfusion hcv
      · exact h
    obtain ⟨j, hj⟩ := binarySearchGo_finds c heq hswap xs key ((left + right) / 2 + 1) right
      hsorted hr i hgt hir hk
    refine ⟨j, ?_⟩
    rw [binarySearchGo]
    simp only [dif_pos hlr, hget, hcv]
    exact hj
  | gt =>
    have hlt : i < (left + right) / 2 := by
      rcases Nat.lt_trichotomy i ((left + right) / 2) with h | h | h
      · exact h
      · exfalso
        subst h
        rw [hkey, (heq key key).mpr rfl] at hcv
        exact Ordering.noConfusion hcv
      · exfalso
        have hle := hsg ⟨(left + right) / 2, hmidlt⟩ ⟨i, hilen⟩ h
        simp only [List.get_eq_getElem, hkey] at hle
        exact hle hcv
    obtain ⟨j, hj⟩ := binarySearchGo_finds c heq hswap xs key left ((left + right) / 2)
      hsorted (by omega) i hil hlt hk
    refine ⟨j, ?_⟩
    rw [binarySearchGo]
    simp only [dif_pos hlr, hget, hcv]
    exact hj
termination_by right - left
decreasing_by
  · omega
  · omega

/-- On a sorted list, `binary_search` finds every present element. -/
theorem binarySearch_finds {α : Type} (c : α → α → Ordering)
    (heq : ∀ a b, c a b = .eq ↔ a = b)
    (hswap : ∀ a b, (c a b).swap = c b a)
    (xs : List α) (key : α)
    (hsorted : List.Pairwise (fun a b => c a b ≠ .gt) xs)
    (hmem : key ∈ xs) :
    ∃ j, binarySearch c xs key = .found j := by
  obtain ⟨i, hk⟩ := List.mem_iff_getElem?.mp hmem
  have hilen : i < xs.length := by
    by_contra h
    rw [List.getElem?_eq_none (Nat.le_of_not_lt h)] at hk
    exact Option.noConfusion hk
  exact binarySearchGo_finds c heq hswap xs key 0 xs.length hsorted le_rfl i
    (Nat.zero_le i) hilen hk

/-! ## `write_kg_csvs` (src/traits/kg_like_db.rs lines 401-497)

File-system I/O is external; the model produces the rows that are written
to each CSV (headers aside) and the in-memory buffers (`nodes`,
`edge_classes`) used for ID resolution. A Rust panic (`unimplemented!`
inside an iterator, or a failed `.expect`) aborts the process and is
modelled as the `fatal` outcome, distinct from the returned
`crate::errors::Error`. -/

/-- How a run of `write_kg_csvs` can stop early. -/
inductive KGFailure : Type where
  | err : Error → KGFailure
  | fatal : String → KGFailure
deriving DecidableEq

/-- Outcome of a section of `write_kg_csvs`. -/
inductive KGResult (α : Type) : Type where
  | ok : α → KGResult α
  | fail : KGFailure → KGResult α
deriving DecidableEq

/-- One data row of `nodes.csv`: the node display string and the written
`node_class_ids` list (head first, then the pipe-separated tail). -/
structure NodeRow : Type where
  node : String
  class_ids : List Nat
deriving DecidableEq

/-- The `node_classes.csv` data rows (lines 411-426): one quoted
schema-qualified name per table, in catalog enumeration order. -/
def nodeClassesSection (db : Database) : List String :=
  db.tables.map (fun t =>
    match t.table.table_schema with
    | some s => s ++ "." ++ t.table.table_name
    | none => t.table.table_name)

/-- The loop of the nodes section (lines 435-450):
`self.nodes(conn).zip(self.tables()).enumerate()`, writing one row per
node (`table_id` then the zipped table's ancestor class IDs) and extending
the node buffer; `nodes_result?` propagates a diesel error, a missing
`table_id` is the `.expect` panic. -/
def nodesSectionGo (db : Database) :
    List (NodeResult × TableInfo) → Nat → KGResult (List NodeRow × List Node)
  | [], _ => .ok ([], [])
  | (res, tbl) :: rest, tid =>
    match res with
    | .err e => .fail (.err (.Diesel e))
    | .unimplemented _ => .fail (.fatal "unimplemented primary key column types")
    | .ok tableNodes =>
      match tbl.ancestral_extended_tables.mapM db.table_id with
      | none => .fail (.fatal "Failed to find tables loaded from the database")
      | some ancestorIds =>
        match nodesSectionGo db rest (tid + 1) with
        | .fail f => .fail f
        | .ok (rows, buf) =>
          .ok ((tableNodes.map (fun n => NodeRow.mk (nodeDisplay n) (tid :: ancestorIds)))
              ++ rows, tableNodes ++ buf)

/-- The nodes section of `write_kg_csvs`: rows written to `nodes.csv` and
the buffered node sequence retained for the edge pass. -/
def nodesSection (db : Database) : KGResult (List NodeRow × List Node) :=
  nodesSectionGo db ((nodes db).zip db.tables) 0

/-- ID resolution for one edge (lines 481-491): binary-search the host
node, the referenced node, then the edge class; a miss is the
corresponding `Error` with the entity's display string. -/
def resolveEdge (nodeBuf : List Node) (ecBuf : List EdgeClass)
    (e : Node × Node × EdgeClass) : KGResult (Nat × Nat × Nat) :=
  match binarySearch Node.cmp nodeBuf e.1 with
  | .notFound _ => .fail (.err (.NodeNotFound (nodeDisplay e.1)))
  | .found src =>
    match binarySearch Node.cmp nodeBuf e.2.1 with
    | .notFound _ => .fail (.err (.NodeNotFound (nodeDisplay e.2.1)))
    | .found dst =>
      match binarySearch EdgeClass.cmp ecBuf e.2.2 with
      | .notFound _ => .fail (.err (.EdgeClassNotFound (ecDisplay e.2.2)))
      | .found ecid => .ok (src, dst, ecid)

/-- The inner loop over one foreign key's edges: the first resolution
failure aborts (`?` operator), otherwise one `src_id,dst_id,edge_class_id`
row per edge. -/
def resolveEdges (nodeBuf : List Node) (ecBuf : List EdgeClass) :
    List (Node × Node × EdgeClass) → KGResult (List (Nat × Nat × Nat))
  | [] => .ok []
  | e :: rest =>
    match resolveEdge nodeBuf ecBuf e with
    | .fail f => .fail f
    | .ok t =>
      match resolveEdges nodeBuf ecBuf rest with
      | .fail f => .fail f
      | .ok ts => .ok (t :: ts)

/-- The edges section of `write_kg_csvs` (lines 479-493): per visited
foreign key, `edges_result?` propagates diesel errors, the
`unimplemented!` panic aborts, and every edge is resolved in order. -/
def edgesSection (nodeBuf : List Node) (ecBuf : List EdgeClass) :
    List EdgeResult → KGResult (List (Nat × Nat × Nat))
  | [] => .ok []
  | .err e :: _ => .fail (.err (.Diesel e))
  | .unimplemented _ _ :: _ => .fail (.fatal "unimplemented key column type pair")
  | .ok es :: rest =>
    match resolveEdges nodeBuf ecBuf es with
    | .fail f => .fail f
    | .ok ts =>
      match edgesSection nodeBuf ecBuf rest with
      | .fail f => .fail f
      | .ok more => .ok (ts ++ more)

/-! ## Helper lemmas for the claims -/

theorem mapM_option_total {α β : Type} (f : α → Option β) :
    ∀ l : List α, (∀ a ∈ l, (f a).isSome = true) →
      ∃ bs, l.mapM f = some bs ∧ bs.length = l.length
  | [] => fun _ => ⟨[], rfl, rfl⟩
  | a :: l => fun h => by
    obtain ⟨b, hb⟩ := Option.isSome_iff_exists.mp (h a (List.mem_cons_self a l))
    obtain ⟨bs, hbs, hlen⟩ :=
      mapM_option_total f l (fun x hx => h x (List.mem_cons_of_mem a hx))
    exact ⟨b :: bs, by rw [List.mapM_cons, hb, hbs]; rfl, by simp [hlen]⟩

theorem foldl_add_length {α : Type} (f : α → Nat) :
    ∀ (l : List α) (n : Nat), l.foldl (fun total t => total + f t) n = n + (l.map f).sum
  | [], n => by simp
  | a :: l, n => by
    rw [List.foldl_cons, foldl_add_length f l (n + f a)]
    simp [List.map_cons, List.sum_cons]
    omega

/-! ## Example catalogs used as witnesses and counterexamples -/

/-- An inheritance pair: `people` is extended by `employees` (so `people`
contributes no nodes) and precedes it in the catalog enumeration. -/
def peopleTable : Table := ⟨none, "people"⟩

def employeesTable : Table := ⟨none, "employees"⟩

def idIntCol : Column := ⟨"id", "INT"⟩

def peopleInfo : TableInfo := ⟨peopleTable, [idIntCol], true, [], [], [[.int 7]], none⟩

def employeesInfo : TableInfo :=
  ⟨employeesTable, [idIntCol], false, [peopleTable], [], [[.int 1]], none⟩

def exDbInheritance : Database := ⟨[peopleInfo, employeesInfo]⟩

/-- A table with a two-column all-`INT` primary key and one row. -/
def twoIntPkTable : TableInfo :=
  ⟨⟨none, "pair"⟩, [⟨"a", "INT"⟩, ⟨"b", "INT"⟩], false, [], [], [[.int 1, .int 2]], none⟩

/-! ## C5 -/

/-- C5: the comparison on `PrimaryKey` is a total order (equality exactly
on structurally equal values, antisymmetric by swap, transitive); a value
whose variant tag precedes another's in the fixed precedence
`Text < Int32 < Int64 < Uuid < Composite` compares less; on equal tags the
order is the underlying primitive's natural order; and `Composite` values
compare element-wise lexicographically. Structural equality is the `.eq`
case of the same comparison. -/
theorem C5_primary_key_total_order :
    (∀ a b : PrimaryKey, PrimaryKey.cmp a b = .eq ↔ a = b) ∧
    (∀ a b : PrimaryKey, (PrimaryKey.cmp a b).swap = PrimaryKey.cmp b a) ∧
    (∀ a b c : PrimaryKey, PrimaryKey.cmp a b = .lt → PrimaryKey.cmp b c = .lt →
      PrimaryKey.cmp a c = .lt) ∧
    (∀ a b : PrimaryKey, a.tag < b.tag → PrimaryKey.cmp a b = .lt) ∧
    (∀ s t : String, PrimaryKey.cmp (.String s) (.String t) = strCmp s t) ∧
    (∀ i j : Int, PrimaryKey.cmp (.I32 i) (.I32 j) = lcmp i j) ∧
    (∀ i j : Int, PrimaryKey.cmp (.I64 i) (.I64 j) = lcmp i j) ∧
    (∀ u v : Nat, PrimaryKey.cmp (.UUID u) (.UUID v) = lcmp u v) ∧
    (∀ as bs : List PrimaryKey,
      PrimaryKey.cmp (.Composite as) (.Composite bs) = .lt ↔ List.Lex pkLt as bs) := by
  refine ⟨pkCmp_eq_eq, pkCmp_swap, pkCmp_trans, ?_, fun s t => rfl, fun i j => rfl,
    fun i j => rfl, fun u v => rfl, ?_⟩
  · intro a b h
    rw [pkCmp_of_tag_ne a b (Nat.ne_of_lt h)]
    exact (lcmp_eq_lt _ _).mpr h
  · intro as bs
    simp only [PrimaryKey.cmp]
    exact pkCmpList_lt_iff_lex as bs

/-- Witness for C5: the transitivity and tag-precedence components applied
at concrete keys. -/
theorem C5_primary_key_total_order_witness :
    PrimaryKey.cmp (.I32 0) (.I32 2) = .lt ∧ PrimaryKey.cmp (.String "z") (.UUID 0) = .lt :=
  ⟨C5_primary_key_total_order.2.2.1 (.I32 0) (.I32 1) (.I32 2) (by decide) (by decide),
   C5_primary_key_total_order.2.2.2.1 (.String "z") (.UUID 0) (by decide)⟩

/-! ## C8 -/

/-- C8: converting a vector of key values normalizes a one-element vector
to its single element: `pkFromVec [x] = x`, and the result is never the
trivial one-element `Composite` wrapper of the input. -/
theorem C8_singleton_vec_normalized :
    ∀ x : PrimaryKey, pkFromVec [x] = x ∧ pkFromVec [x] ≠ PrimaryKey.Composite [x] := by
  intro x
  refine ⟨rfl, ?_⟩
  show x ≠ PrimaryKey.Composite [x]
  intro h
  have hs := congrArg sizeOf h
  simp at hs
  omega

/-! ## C2 -/

/-- The single-column (host primary-key type, host foreign-key type)
matrix exactly as the claim states it. -/
def specSupportedMatrix : List (String × String) :=
  [("TEXT", "TEXT"), ("INT", "INT"), ("UUID", "UUID"), ("INT", "UUID"),
   ("UUID", "INT"), ("VARCHAR", "UUID"), ("UUID", "VARCHAR")]

/-- The single-column matrix the code's dispatch actually accepts: the
first Rust arm is `(["TEXT" | "VARCHAR"], ["TEXT" | "VARCHAR"])`, so the
whole textual square is supported, not only `TEXT↔TEXT`. -/
def codeSupportedMatrix : List (String × String) :=
  [("TEXT", "TEXT"), ("TEXT", "VARCHAR"), ("VARCHAR", "TEXT"), ("VARCHAR", "VARCHAR"),
   ("INT", "INT"), ("UUID", "UUID"), ("INT", "UUID"), ("UUID", "INT"),
   ("VARCHAR", "UUID"), ("UUID", "VARCHAR")]

/-- Counterexample to C2 as stated: the pair `(VARCHAR, VARCHAR)` is
outside the claimed matrix, yet the edge pass selects a typed decode path
for it (it is not surfaced as unsupported). -/
theorem C2_counterexample :
    (edgeDispatch ["VARCHAR"] ["VARCHAR"]).isSome = true ∧
    edgeDispatch ["VARCHAR"] ["VARCHAR"] = some .textToText ∧
    ("VARCHAR", "VARCHAR") ∉ specSupportedMatrix := by decide

/-- C2 (amended): a typed decode path is selected exactly when both sides
are single columns and the type pair lies in the code's matrix — the
claimed matrix with `TEXT↔TEXT` widened to the full
`{TEXT,VARCHAR} × {TEXT,VARCHAR}` square; every other shape reaches the
`unimplemented!` arm, a fatal panic distinct from the `Err` data-error
channel, and no row of such a foreign key is decoded. -/
theorem C2_amended_dispatch_matrix :
    (∀ pks fks : List String, (edgeDispatch pks fks).isSome = true ↔
      ∃ a b, pks = [a] ∧ fks = [b] ∧ (a, b) ∈ codeSupportedMatrix) ∧
    (∀ (t : TableInfo) (fk : ForeignKey),
      edgeDispatch (t.primary_key_columns.map (·.normalized_data_type))
        (fk.host_columns.map (·.normalized_data_type)) = none →
      edgesForJob t fk = .unimplemented (t.primary_key_columns.map (·.normalized_data_type))
        (fk.host_columns.map (·.normalized_data_type)) ∧
      (∀ l, edgesForJob t fk ≠ .ok l) ∧ (∀ e, edgesForJob t fk ≠ .err e)) := by
  constructor
  · intro pks fks
    rcases pks with _ | ⟨a, _ | ⟨a2, pks⟩⟩ <;> rcases fks with _ | ⟨b, _ | ⟨b2, fks⟩⟩ <;>
      simp [edgeDispatch, codeSupportedMatrix] <;> split_ifs <;> (try simp_all) <;> tauto
  · intro t fk h
    have hbody : edgesForJob t fk =
        .unimplemented (t.primary_key_columns.map (·.normalized_data_type))
          (fk.host_columns.map (·.normalized_data_type)) := by
      rw [edgesForJob, h]
    refine ⟨hbody, fun l hl => ?_, fun e he => ?_⟩
    · rw [hbody] at hl
      exact EdgeResult.noConfusion hl
    · rw [hbody] at he
      exact EdgeResult.noConfusion he

/-- Witness for C2 (amended): a supported and an unsupported concrete
dispatch, the latter on a concrete catalog with a `BIGINT` pair. -/
theorem C2_amended_dispatch_matrix_witness :
    (edgeDispatch ["INT"] ["UUID"]).isSome = true ∧
    edgesForJob (TableInfo.mk ⟨none, "t"⟩ [⟨"id", "BIGINT"⟩] false [] [] [] none)
        (ForeignKey.mk [⟨"r", "BIGINT"⟩] ⟨none, "u"⟩ true [] none) =
      .unimplemented ["BIGINT"] ["BIGINT"] :=
  ⟨(C2_amended_dispatch_matrix.1 ["INT"] ["UUID"]).mpr
      ⟨"INT", "UUID", rfl, rfl, by decide⟩,
   (C2_amended_dispatch_matrix.2
      (TableInfo.mk ⟨none, "t"⟩ [⟨"id", "BIGINT"⟩] false [] [] [] none)
      (ForeignKey.mk [⟨"r", "BIGINT"⟩] ⟨none, "u"⟩ true [] none) (by decide)).1⟩

/-! ## C3 -/

/-- Counterexample to C3 as stated: a table whose primary key has two
columns, both of the supported type `INT`, does not get its rows decoded —
the node pass hits the `unimplemented!` panic arm instead of emitting one
node per row. -/
theorem C3_counterexample :
    twoIntPkTable.primary_key_columns.length = 2 ∧
    (∀ c ∈ twoIntPkTable.primary_key_columns, c.normalized_data_type = "INT") ∧
    twoIntPkTable.pk_rows.length = 1 ∧
    nodesForTable twoIntPkTable = .unimplemented ["INT", "INT"] := by decide

/-- C3 (amended): a table with no primary key or one wider than 3 columns
contributes zero nodes and no error; a table whose primary key is a
single column of a supported type has every row's key decoded, one `Node`
per row (on its own table, keys sorted); a 2- or 3-column key — of any
types — reaches the `unimplemented!` panic arm instead. -/
theorem C3_amended_node_pass :
    ∀ t : TableInfo,
    ((t.primary_key_columns.length = 0 ∨ 3 < t.primary_key_columns.length) →
      nodesForTable t = .ok []) ∧
    (∀ c p, t.primary_key_columns = [c] →
      nodeDispatch [c.normalized_data_type] = some p →
      t.load_error = none →
      (∀ r ∈ t.pk_rows, (decodePK p r).isSome = true) →
      ∃ ks, t.pk_rows.mapM (decodePK p) = some ks ∧
        ∃ ns, nodesForTable t = .ok ns ∧ ns.length = t.pk_rows.length ∧
          (∀ n ∈ ns, n.table = t.table) ∧ (ns.map (·.primary_key)).Perm ks) ∧
    (∀ ts, t.primary_key_columns.map (·.normalized_data_type) = ts →
      (ts.length = 2 ∨ ts.length = 3) →
      nodesForTable t = .unimplemented ts) := by
  intro t
  refine ⟨fun h => by rw [nodesForTable, if_pos h], ?_, ?_⟩
  · intro c p hc hp hload hrows
    obtain ⟨ks, hks, hlen⟩ := mapM_option_total (decodePK p) t.pk_rows hrows
    refine ⟨ks, hks, (List.insertionSort pkLe ks).map (fun k => Node.mk t.table k), ?_, ?_, ?_, ?_⟩
    · rw [nodesForTable, if_neg (by rw [hc]; simp), hc]
      simp only [List.map_cons, List.map_nil, hp, hload, hks]
    · rw [List.length_map, (List.perm_insertionSort pkLe ks).length_eq, hlen]
    · intro n hn
      obtain ⟨k, _, rfl⟩ := List.mem_map.mp hn
      rfl
    · rw [List.map_map]
      have : ((fun n : Node => n.primary_key) ∘ fun k => Node.mk t.table k) = id := rfl
      rw [this, List.map_id]
      exact List.perm_insertionSort pkLe ks
  · intro ts hts hlen2
    have hnone : nodeDispatch ts = none := by
      rcases ts with _ | ⟨a, _ | ⟨b, ts⟩⟩
      · simp at hlen2
      · simp at hlen2
      · rfl
    have hlencols : t.primary_key_columns.length = ts.length := by
      rw [← hts, List.length_map]
    rw [nodesForTable, if_neg (by omega), hts, hnone]

/-- Witness for C3 (amended): the skip case on a concrete 4-column-key
table, the single-`INT` case on a concrete one-row table, and the
2-column panic case on the counterexample table. -/
theorem C3_amended_node_pass_witness :
    nodesForTable (TableInfo.mk ⟨none, "wide"⟩
      [⟨"a", "INT"⟩, ⟨"b", "INT"⟩, ⟨"c", "INT"⟩, ⟨"d", "INT"⟩] false [] [] [] none) = .ok [] ∧
    (∃ ks, employeesInfo.pk_rows.mapM (decodePK .int) = some ks ∧
      ∃ ns, nodesForTable employeesInfo = .ok ns ∧ ns.length = employeesInfo.pk_rows.length ∧
        (∀ n ∈ ns, n.table = employeesInfo.table) ∧ (ns.map (·.primary_key)).Perm ks) ∧
    nodesForTable twoIntPkTable = .unimplemented ["INT", "INT"] :=
  ⟨(C3_amended_node_pass _).1 (by decide),
   (C3_amended_node_pass employeesInfo).2.1 idIntCol .int (by decide) (by decide) (by decide)
     (by decide),
   (C3_amended_node_pass twoIntPkTable).2.2 ["INT", "INT"] (by decide) (by decide)⟩

/-! ## C6 -/

/-- C6: a host row with a `NULL` in any projected key column (host
primary-key side or foreign-key side) contributes no edge and raises no
error: the row is dropped by the `filter_map` and the surrounding rows
still yield exactly their edges, the whole foreign key still loading
successfully. -/
theorem C6_null_row_excluded :
    ∀ (host referenced : Table) (ec : EdgeClass)
      (pre post : List (Option PrimaryKey × Option PrimaryKey))
      (r : Option PrimaryKey × Option PrimaryKey),
    (r.1 = none ∨ r.2 = none) →
    (pairUp host referenced ec (pre ++ r :: post) =
      pairUp host referenced ec pre ++ pairUp host referenced ec post) ∧
    (∀ (t : TableInfo) (fk : ForeignKey) (p : EdgePath),
      edgeDispatch (t.primary_key_columns.map (·.normalized_data_type))
        (fk.host_columns.map (·.normalized_data_type)) = some p →
      fk.load_error = none →
      fk.rows = pre ++ r :: post →
      t.table = host → fk.referenced_table = referenced →
      EdgeClass.mk t.table fk.host_columns = ec →
      edgesForJob t fk =
        .ok (pairUp host referenced ec pre ++ pairUp host referenced ec post)) := by
  intro host referenced ec pre post r hnull
  have hdrop : (match r.1, r.2 with
      | some a, some b => some (Node.mk host a, Node.mk referenced b, ec)
      | _, _ => none) = (none : Option (Node × Node × EdgeClass)) := by
    obtain ⟨r1, r2⟩ := r
    rcases hnull with h | h <;> simp only at h <;> subst h
    · rcases r2 with _ | v <;> rfl
    · rcases r1 with _ | v <;> rfl
  have hsplit : pairUp host referenced ec (pre ++ r :: post) =
      pairUp host referenced ec pre ++ pairUp host referenced ec post := by
    rw [pairUp, List.filterMap_append, List.filterMap_cons, hdrop]
  refine ⟨hsplit, ?_⟩
  intro t fk p hp hload hrows ht href hec
  simp only [edgesForJob, hp, hload]
  rw [hec, ht, href, hrows, hsplit]

/-- Witness for C6: a concrete foreign key with one null row between two
proper rows yields exactly the two outer edges and no error. -/
theorem C6_null_row_excluded_witness :
    edgesForJob
      (TableInfo.mk ⟨none, "comments"⟩ [⟨"id", "INT"⟩] false [] [] [] none)
      (ForeignKey.mk [⟨"user_id", "INT"⟩] ⟨none, "users"⟩ true
        [(some (.I32 1), some (.I32 10)), (some (.I32 2), none),
         (some (.I32 3), some (.I32 11))] none) =
      .ok [(Node.mk ⟨none, "comments"⟩ (.I32 1), Node.mk ⟨none, "users"⟩ (.I32 10),
              EdgeClass.mk ⟨none, "comments"⟩ [⟨"user_id", "INT"⟩]),
           (Node.mk ⟨none, "comments"⟩ (.I32 3), Node.mk ⟨none, "users"⟩ (.I32 11),
              EdgeClass.mk ⟨none, "comments"⟩ [⟨"user_id", "INT"⟩])] := by
  have h := (C6_null_row_excluded ⟨none, "comments"⟩ ⟨none, "users"⟩
    (EdgeClass.mk ⟨none, "comments"⟩ [⟨"user_id", "INT"⟩])
    [(some (.I32 1), some (.I32 10))] [(some (.I32 3), some (.I32 11))]
    (some (.I32 2), none) (Or.inr rfl)).2
    (TableInfo.mk ⟨none, "comments"⟩ [⟨"id", "INT"⟩] false [] [] [] none)
    (ForeignKey.mk [⟨"user_id", "INT"⟩] ⟨none, "users"⟩ true
      [(some (.I32 1), some (.I32 10)), (some (.I32 2), none),
       (some (.I32 3), some (.I32 11))] none)
    .intToInt (by decide) rfl rfl rfl rfl rfl
  rw [h]
  rfl

/-! ## C9 -/

/-- C9: `number_of_nodes` sums the row counts of every table of the
catalog — extended tables and tables without a usable primary key
included — and therefore strictly exceeds the number of nodes the node
pass emits on some databases (here: an inheritance pair whose base table
is skipped by the node pass but still counted). -/
theorem C9_number_of_nodes_overcounts :
    (∀ db : Database,
      number_of_nodes db = (db.tables.map (fun t => t.pk_rows.length)).sum) ∧
    (∃ (db : Database) (rows : List NodeRow) (buf : List Node),
      nodesSection db = .ok (rows, buf) ∧ buf.length < number_of_nodes db) := by
  constructor
  · intro db
    rw [number_of_nodes, foldl_add_length (fun t => t.pk_rows.length) db.tables 0]
    exact Nat.zero_add _
  · exact ⟨exDbInheritance, [NodeRow.mk "employees(1)" [0]],
      [Node.mk employeesTable (.I32 1)], by decide, by decide⟩

/-! ## C7 -/

theorem binarySearch_nil {α : Type} (c : α → α → Ordering) (key : α) :
    binarySearch c [] key = .notFound 0 := by
  rw [binarySearch, binarySearchGo]
  simp

theorem resolveEdges_prefix_fail (nodeBuf : List Node) (ecBuf : List EdgeClass)
    (e : Node × Node × EdgeClass) (post : List (Node × Node × EdgeClass))
    (f : KGFailure) (hf : resolveEdge nodeBuf ecBuf e = .fail f) :
    ∀ pre : List (Node × Node × EdgeClass),
      (∀ q ∈ pre, ∃ ids, resolveEdge nodeBuf ecBuf q = .ok ids) →
      resolveEdges nodeBuf ecBuf (pre ++ e :: post) = .fail f
  | [] => fun _ => by rw [List.nil_append, resolveEdges, hf]
  | q :: pre => fun h => by
    obtain ⟨ids, hq⟩ := h q (List.mem_cons_self q pre)
    rw [List.cons_append, resolveEdges, hq,
      resolveEdges_prefix_fail nodeBuf ecBuf e post f hf pre
        (fun x hx => h x (List.mem_cons_of_mem q hx))]

/-- C7: during edge writing, if the host node, the referenced node or the
edge class of some edge is not found by the exact binary-search lookup in
the buffered pass-1 sequence, the run fails with `NodeNotFound`
(resp. `EdgeClassNotFound`) carrying that entity's display string —
whatever edges follow are not processed (the failure does not depend on
them), and the failure propagates out of the per-foreign-key loop
unchanged. -/
theorem C7_lookup_miss_fatal :
    ∀ (nodeBuf : List Node) (ecBuf : List EdgeClass)
      (pre post : List (Node × Node × EdgeClass)) (e : Node × Node × EdgeClass),
    (∀ q ∈ pre, ∃ ids, resolveEdge nodeBuf ecBuf q = .ok ids) →
    ((∀ k, binarySearch Node.cmp nodeBuf e.1 = .notFound k →
      resolveEdges nodeBuf ecBuf (pre ++ e :: post) =
        .fail (.err (.NodeNotFound (nodeDisplay e.1)))) ∧
     (∀ i k, binarySearch Node.cmp nodeBuf e.1 = .found i →
      binarySearch Node.cmp nodeBuf e.2.1 = .notFound k →
      resolveEdges nodeBuf ecBuf (pre ++ e :: post) =
        .fail (.err (.NodeNotFound (nodeDisplay e.2.1)))) ∧
     (∀ i j k, binarySearch Node.cmp nodeBuf e.1 = .found i →
      binarySearch Node.cmp nodeBuf e.2.1 = .found j →
      binarySearch EdgeClass.cmp ecBuf e.2.2 = .notFound k →
      resolveEdges nodeBuf ecBuf (pre ++ e :: post) =
        .fail (.err (.EdgeClassNotFound (ecDisplay e.2.2)))) ∧
     (∀ rest f, resolveEdges nodeBuf ecBuf (pre ++ e :: post) = .fail f →
      edgesSection nodeBuf ecBuf (.ok (pre ++ e :: post) :: rest) = .fail f)) := by
  intro nodeBuf ecBuf pre post e hpre
  refine ⟨?_, ?_, ?_, ?_⟩
  · intro k hk
    refine resolveEdges_prefix_fail nodeBuf ecBuf e post _ ?_ pre hpre
    rw [resolveEdge, hk]
  · intro i k hi hk
    refine resolveEdges_prefix_fail nodeBuf ecBuf e post _ ?_ pre hpre
    rw [resolveEdge, hi, hk]
  · intro i j k hi hj hk
    refine resolveEdges_prefix_fail nodeBuf ecBuf e post _ ?_ pre hpre
    rw [resolveEdge, hi, hj, hk]
  · intro rest f hfail
    rw [edgesSection, hfail]

/-- Witness for C7: a concrete edge whose endpoints are missing from an
empty buffer aborts the section with the node's display string. -/
theorem C7_lookup_miss_fatal_witness :
    resolveEdges [] [] [(Node.mk ⟨none, "users"⟩ (.I32 7), Node.mk ⟨none, "users"⟩ (.I32 8),
        EdgeClass.mk ⟨none, "users"⟩ [])] =
      .fail (.err (.NodeNotFound "users(7)")) :=
  (C7_lookup_miss_fatal [] [] [] []
    (Node.mk ⟨none, "users"⟩ (.I32 7), Node.mk ⟨none, "users"⟩ (.I32 8),
      EdgeClass.mk ⟨none, "users"⟩ []) (by simp)).1 0
    (binarySearch_nil Node.cmp (Node.mk ⟨none, "users"⟩ (.I32 7)))

/-! ## C4 -/

theorem flatMap_perm_congr {α β : Type} (f g : α → List β) (h : ∀ a, (f a).Perm (g a)) :
    ∀ l : List α, (l.flatMap f).Perm (l.flatMap g)
  | [] => List.Perm.refl _
  | a :: l => by
    rw [List.flatMap_cons, List.flatMap_cons]
    exact (h a).append (flatMap_perm_congr f g h l)

/-- Membership in one table's sorted edge-class run pins the host table. -/
theorem mem_edge_class_run (t : TableInfo) (e : EdgeClass)
    (h : e ∈ List.insertionSort ecLe
      (t.foreign_keys.filterMap (fun fk =>
        if fk.is_referenced_primary_key then some (EdgeClass.mk t.table fk.host_columns)
        else none))) : e.host_table = t.table := by
  obtain ⟨fk, _, hfk⟩ := List.mem_filterMap.mp ((List.mem_insertionSort ecLe).mp h)
  by_cases hq : fk.is_referenced_primary_key
  · rw [if_pos hq] at hfk
    rw [← Option.some.inj hfk]
  · rw [if_neg hq] at hfk
    exact Option.noConfusion hfk

/-- The duplicate-foreign-key catalog: one table carrying the same
qualifying foreign key twice. -/
def dupFk : ForeignKey := ⟨[⟨"r", "INT"⟩], ⟨none, "u"⟩, true, [], none⟩

def exDbDupFk : Database :=
  ⟨[⟨⟨none, "t"⟩, [idIntCol], false, [], [dupFk, dupFk], [], none⟩]⟩

/-- Counterexample to C4 as stated: with two qualifying foreign keys on
the same host columns, the edge-class sequence contains a duplicate —
`edge_classes` sorts per table but never deduplicates. -/
theorem C4_counterexample :
    edge_classes exDbDupFk =
      [EdgeClass.mk ⟨none, "t"⟩ [⟨"r", "INT"⟩], EdgeClass.mk ⟨none, "t"⟩ [⟨"r", "INT"⟩]] ∧
    ¬ (edge_classes exDbDupFk).Nodup := by decide

/-- C4 (amended): the edge-class sequence holds one `EdgeClass` per
foreign key whose target matches the referenced table's primary key (as a
permutation of the unsorted qualifying collection — duplicates are kept,
there is no dedup pass), and it is globally sorted by the `EdgeClass`
order whenever the catalog's table enumeration is strictly increasing in
the table order. -/
theorem C4_amended_edge_classes :
    ∀ db : Database,
    (edge_classes db).Perm (db.tables.flatMap (fun t =>
      t.foreign_keys.filterMap (fun fk =>
        if fk.is_referenced_primary_key then some (EdgeClass.mk t.table fk.host_columns)
        else none))) ∧
    (List.Pairwise (fun a b : TableInfo => tableCmp a.table b.table = .lt) db.tables →
      List.Pairwise ecLe (edge_classes db)) := by
  intro db
  constructor
  · exact flatMap_perm_congr _ _
      (fun t => List.perm_insertionSort ecLe _) db.tables
  · intro hsorted
    rw [edge_classes, List.flatMap_def, List.pairwise_flatten]
    constructor
    · intro run hrun
      obtain ⟨t, _, rfl⟩ := List.mem_map.mp hrun
      exact List.sorted_insertionSort ecLe _
    · rw [List.pairwise_map]
      refine hsorted.imp_of_mem ?_
      intro t1 t2 _ _ hlt e1 he1 e2 he2
      have h1 := mem_edge_class_run t1 e1 he1
      have h2 := mem_edge_class_run t2 e2 he2
      show EdgeClass.cmp e1 e2 ≠ .gt
      rw [EdgeClass.cmp, h1, h2, hlt]
      simp [Ordering.then]

/-- Witness for C4 (amended) on the duplicate-foreign-key catalog, whose
one-table enumeration is trivially strictly increasing. -/
theorem C4_amended_edge_classes_witness :
    (edge_classes exDbDupFk).Perm (exDbDupFk.tables.flatMap (fun t =>
      t.foreign_keys.filterMap (fun fk =>
        if fk.is_referenced_primary_key then some (EdgeClass.mk t.table fk.host_columns)
        else none))) ∧
    List.Pairwise ecLe (edge_classes exDbDupFk) :=
  ⟨(C4_amended_edge_classes exDbDupFk).1,
   (C4_amended_edge_classes exDbDupFk).2 (by decide)⟩

/-! ## C10 -/

/-- What an `ok` of the per-table node closure guarantees: the emitted
nodes are sorted by the node order and all live on the visited table. -/
theorem nodesForTable_ok_inv (t : TableInfo) (ns : List Node)
    (h : nodesForTable t = .ok ns) :
    List.Pairwise nodeLe ns ∧ ∀ n ∈ ns, n.table = t.table := by
  rw [nodesForTable] at h
  split_ifs at h with hskip
  · rw [← NodeResult.ok.inj h]
    exact ⟨List.Pairwise.nil, by simp⟩
  · split at h
    · exact NodeResult.noConfusion h
    · split at h
      · exact NodeResult.noConfusion h
      · split at h
        · exact NodeResult.noConfusion h
        · rename_i p _ _ ks hks
          rw [← NodeResult.ok.inj h]
          constructor
          · rw [List.pairwise_map]
            refine (List.sorted_insertionSort pkLe ks).imp ?_
            intro k1 k2 hk
            show Node.cmp (Node.mk t.table k1) (Node.mk t.table k2) ≠ .gt
            rw [Node.cmp]
            show ((tableCmp t.table t.table).then (PrimaryKey.cmp k1 k2)) ≠ .gt
            rw [(tableCmp_eq_eq t.table t.table).mpr rfl]
            exact hk
          · intro n hn
            obtain ⟨k, _, rfl⟩ := List.mem_map.mp hn
            rfl

/-- The buffer built by the nodes-section loop is the concatenation of the
`ok` payloads of the zipped node results. -/
theorem nodesSectionGo_buffer (db : Database) :
    ∀ (l : List (NodeResult × TableInfo)) (tid : Nat) (rows : List NodeRow) (buf : List Node),
    nodesSectionGo db l tid = .ok (rows, buf) →
    ∃ payloads : List (List Node),
      l.map Prod.fst = payloads.map NodeResult.ok ∧ buf = payloads.flatten
  | [], _, rows, buf => fun h => by
    obtain ⟨h1, h2⟩ := Prod.mk.injEq _ _ _ _ ▸ KGResult.ok.inj h
    exact ⟨[], rfl, h2.symm⟩
  | (res, tbl) :: rest, tid, rows, buf => fun h => by
    cases res with
    | err e => simp only [nodesSectionGo] at h; exact KGResult.noConfusion h
    | unimplemented ts => simp only [nodesSectionGo] at h; exact KGResult.noConfusion h
    | ok tableNodes =>
      cases hanc : tbl.ancestral_extended_tables.mapM db.table_id with
      | none => simp only [nodesSectionGo, hanc] at h; exact KGResult.noConfusion h
      | some ancestorIds =>
        cases hrec : nodesSectionGo db rest (tid + 1) with
        | fail f =>
          simp only [nodesSectionGo, hanc, hrec] at h
          exact KGResult.noConfusion h
        | ok pr =>
          obtain ⟨rows2, buf2⟩ := pr
          simp only [nodesSectionGo, hanc, hrec] at h
          obtain ⟨h1, h2⟩ := Prod.mk.injEq _ _ _ _ ▸ KGResult.ok.inj h
          obtain ⟨payloads, hmap, hbuf⟩ :=
            nodesSectionGo_buffer db rest (tid + 1) rows2 buf2 hrec
          exact ⟨tableNodes :: payloads, by rw [List.map_cons, List.map_cons, hmap],
            by rw [← h2, hbuf, List.flatten_cons]⟩

theorem forall2_mem_right {α β : Type} (R : α → β → Prop) :
    ∀ as bs, List.Forall₂ R as bs → ∀ b ∈ bs, ∃ a ∈ as, R a b
  | _, _, .nil => by simp
  | a :: as, b :: bs, .cons h hrest => by
    intro b2 hb2
    rcases List.mem_cons.mp hb2 with rfl | hb2
    · exact ⟨a, List.mem_cons_self a as, h⟩
    · obtain ⟨a2, ha2, hr⟩ := forall2_mem_right R as bs hrest b2 hb2
      exact ⟨a2, List.mem_cons_of_mem a ha2, hr⟩

theorem pairwise_of_forall2 {α β : Type} (R : α → β → Prop) (P : α → α → Prop)
    (Q : β → β → Prop)
    (himp : ∀ a1 a2 b1 b2, R a1 b1 → R a2 b2 → P a1 a2 → Q b1 b2) :
    ∀ as bs, List.Forall₂ R as bs → List.Pairwise P as → List.Pairwise Q bs
  | _, _, .nil, _ => .nil
  | a :: as, b :: bs, .cons h hrest, hp => by
    cases hp with
    | cons hp1 hps =>
      refine .cons ?_ (pairwise_of_forall2 R P Q himp as bs hrest hps)
      intro b2 hb2
      obtain ⟨a2, ha2, hr2⟩ := forall2_mem_right R as bs hrest b2 hb2
      exact himp a a2 b b2 h hr2 (hp1 a2 ha2)

theorem map_ok_forall2 :
    ∀ (ts : List TableInfo) (ps : List (List Node)),
      ts.map nodesForTable = ps.map NodeResult.ok →
      List.Forall₂ (fun t ns => nodesForTable t = .ok ns) ts ps
  | [], [] => fun _ => .nil
  | [], p :: ps => by intro h; simp at h
  | t :: ts, [] => by intro h; simp at h
  | t :: ts, p :: ps => by
    intro h
    simp only [List.map_cons, List.cons.injEq] at h
    exact .cons h.1 (map_ok_forall2 ts ps h.2)

/-- A catalog whose enumeration is nondecreasing but not strictly
increasing in the table order: the same table identity appears twice, the
second occurrence carrying a smaller key. -/
def tTable : Table := ⟨none, "t"⟩

def dupTableA : TableInfo := ⟨tTable, [idIntCol], false, [], [], [[.int 5]], none⟩

def dupTableB : TableInfo := ⟨tTable, [idIntCol], false, [], [], [[.int 3]], none⟩

def exDbDupTable : Database := ⟨[dupTableA, dupTableB]⟩

/-- Counterexample to C10 as stated: under a merely *nondecreasing* table
enumeration the buffered node sequence need not be nondecreasing, and
binary search can miss a node that is present in it. -/
theorem C10_counterexample :
    List.Pairwise (fun a b : TableInfo => tableCmp a.table b.table ≠ .gt)
      exDbDupTable.tables ∧
    nodesSection exDbDupTable =
      .ok ([NodeRow.mk "t(5)" [0], NodeRow.mk "t(3)" [1]],
           [Node.mk tTable (.I32 5), Node.mk tTable (.I32 3)]) ∧
    ¬ List.Pairwise nodeLe [Node.mk tTable (.I32 5), Node.mk tTable (.I32 3)] ∧
    Node.mk tTable (.I32 5) ∈ [Node.mk tTable (.I32 5), Node.mk tTable (.I32 3)] ∧
    binarySearch Node.cmp [Node.mk tTable (.I32 5), Node.mk tTable (.I32 3)]
      (Node.mk tTable (.I32 5)) = .notFound 2 := by
  refine ⟨by decide, by decide, by decide, by decide, ?_⟩
  simp [binarySearch, binarySearchGo]
  decide

/-- C10 (amended): when the catalog's table enumeration is *strictly*
increasing in the table ordering used by `Node` comparison (nondecreasing
is not enough when a table identity repeats), the node sequence buffered
by `write_kg_csvs` — per-table runs, each sorted by primary key,
concatenated in enumeration order — is nondecreasing in the node order,
and binary search therefore finds every node present in it. The code only
checks this with `debug_assert!`; nothing enforces the enumeration
precondition. -/
theorem C10_amended_sorted_buffer :
    ∀ (db : Database) (rows : List NodeRow) (buf : List Node),
    List.Pairwise (fun a b : TableInfo => tableCmp a.table b.table = .lt) db.tables →
    nodesSection db = .ok (rows, buf) →
    List.Pairwise nodeLe buf ∧
    (∀ n ∈ buf, ∃ j, binarySearch Node.cmp buf n = .found j) := by
  intro db rows buf hsorted hok
  obtain ⟨payloads, hmap, hbuf⟩ :=
    nodesSectionGo_buffer db ((nodes db).zip db.tables) 0 rows buf hok
  have hlen : (nodes db).length ≤ db.tables.length := by
    rw [nodes, List.length_map]
    exact List.length_filter_le _ _
  rw [List.map_fst_zip _ _ hlen] at hmap
  have hforall2 : List.Forall₂ (fun t ns => nodesForTable t = .ok ns)
      (db.tables.filter (fun t => !t.is_extended)) payloads :=
    map_ok_forall2 _ _ (by rw [← hmap]; rfl)
  have hleafsorted := hsorted.filter (fun t => !t.is_extended)
  have hpw : List.Pairwise nodeLe buf := by
    rw [hbuf, List.pairwise_flatten]
    constructor
    · intro run hrun
      obtain ⟨t, _, hrel⟩ := forall2_mem_right _ _ _ hforall2 run hrun
      exact (nodesForTable_ok_inv t run hrel).1
    · refine pairwise_of_forall2 (fun t ns => nodesForTable t = .ok ns)
        (fun a b : TableInfo => tableCmp a.table b.table = .lt)
        (fun l1 l2 => ∀ x ∈ l1, ∀ y ∈ l2, nodeLe x y) ?_ _ _ hforall2 hleafsorted
      intro t1 t2 ns1 ns2 h1 h2 hlt x hx y hy
      have hx1 := (nodesForTable_ok_inv t1 ns1 h1).2 x hx
      have hy2 := (nodesForTable_ok_inv t2 ns2 h2).2 y hy
      show Node.cmp x y ≠ .gt
      rw [Node.cmp, hx1, hy2, hlt]
      simp [Ordering.then]
  exact ⟨hpw, fun n hn =>
    binarySearch_finds Node.cmp nodeCmp_eq_eq nodeCmp_swap buf n hpw hn⟩

/-- Witness for C10 (amended): a concrete two-table catalog, strictly
increasing, whose buffered sequence is sorted. -/
theorem C10_amended_sorted_buffer_witness :
    List.Pairwise nodeLe
      [Node.mk employeesTable (.I32 1), Node.mk peopleTable (.I32 7)] :=
  (C10_amended_sorted_buffer
    ⟨[⟨employeesTable, [idIntCol], false, [], [], [[.int 1]], none⟩,
      ⟨peopleTable, [idIntCol], false, [], [], [[.int 7]], none⟩]⟩
    [NodeRow.mk "employees(1)" [0], NodeRow.mk "people(7)" [1]]
    [Node.mk employeesTable (.I32 1), Node.mk peopleTable (.I32 7)]
    (by decide) (by decide)).1

/-! ## C1 -/

/-- C1 (code bug, evaluated at the failing input): `write_kg_csvs` zips
the *filtered* node iterator (`self.nodes(conn)`, leaf tables only) with
the *unfiltered* `self.tables()`. On a catalog `[people (extended),
employees (extends people)]` the single node row — which comes from
`employees` — is written with class-ID head `0` (the position of
`people`) and with `people`'s (empty) ancestor list, although the node's
own table `employees` sits at position `1` in `node_classes` and has
ancestor chain `[people]`; the spec-mandated row would be
`"employees(1)",1|0`. -/
theorem C1_nodes_csv_misaligned_on_inheritance :
    nodesSection exDbInheritance =
      .ok ([NodeRow.mk "employees(1)" [0]], [Node.mk employeesTable (.I32 1)]) ∧
    exDbInheritance.table_id employeesTable = some 1 ∧
    exDbInheritance.table_id peopleTable = some 0 ∧
    nodeClassesSection exDbInheritance = ["people", "employees"] ∧
    employeesInfo.ancestral_extended_tables = [peopleTable] ∧
    peopleInfo.is_extended = true := by decide
